import Mathlib

/-!
Verification development for the `autocast` terminal-recording tool.

This file gives a shallow embedding of the core of the program
(`src/asciicast.rs`, `src/config/spawn.rs`, `src/config/run.rs`) and proves
properties of that embedding.

Modelling conventions:
* `std::time::Duration` and `Instant` differences are modelled as `Nat`
  (nanoseconds); all the program does with them is add and compare.
* The PTY byte stream is modelled as a list of pending chunks; each chunk
  carries the wall-clock delay `dt` that elapsed before it was read.  Reading
  a chunk advances the session clock by `dt`.  This abstracts `Instant::now()`
  while keeping the arithmetic of `new_event` exact.
* Bytes are `Nat` values (`< 256` for real data); Rust `&str` bytes are the
  UTF-8 encoding of the string.
* The `expectrl::ControlCode` external type is modelled abstractly as the raw
  byte it sends plus its two-character caret rendering.
-/

/-- Event type tag from `asciicast.rs` (`EventType`). -/
inductive EventType where
  | input
  | output
  | marker
deriving DecidableEq, Repr

/-- Recorded event from `asciicast.rs` (`Event`): a time (Duration, here
nanoseconds), a tag, and a text payload. -/
structure Event where
  time : Nat
  event_type : EventType
  data : String
deriving DecidableEq, Repr

/-- Constructor `Event::input`. -/
def Event.input (time : Nat) (data : String) : Event :=
  ⟨time, EventType.input, data⟩

/-- Constructor `Event::output`. -/
def Event.output (time : Nat) (data : String) : Event :=
  ⟨time, EventType.output, data⟩

/-- Constructor `Event::outputln`: an output event with data `"\r\n"`. -/
def Event.outputln (time : Nat) : Event :=
  ⟨time, EventType.output, "\r\n"⟩

/-- Constructor `Event::marker`. -/
def Event.marker (time : Nat) (data : String) : Event :=
  ⟨time, EventType.marker, data⟩

/-- Model of the external `expectrl::ControlCode`: `byte` is the raw control
byte sent to the shell (its `AsRef<[u8]>` view), `caret` its two-character
caret notation (its `AsRef<str>` view, e.g. `"^C"`). -/
structure ControlCode where
  byte : Nat
  caret : String
deriving DecidableEq, Repr

/-- `Command` from the config data model (`config`), as consumed by
`config/run.rs`. -/
inductive Command where
  | singleLine (line : String)
  | multiLine (lines : List String)
  | control (c : ControlCode)
deriving DecidableEq, Repr

/-- `Key` from the config data model, as consumed by `config/run.rs`. -/
inductive Key where
  | char (c : Char)
  | string (s : String)
  | control (c : ControlCode)
  | wait (d : Nat)
deriving DecidableEq, Repr

/-- `Instruction` from the config data model, as consumed by
`config/run.rs`. -/
inductive Instruction where
  | command (command : Command) (hidden : Bool) (type_speed : Option Nat)
  | interactive (command : Command) (keys : List Key) (type_speed : Option Nat)
  | wait (d : Nat)
  | marker (data : String)
  | clear
deriving DecidableEq, Repr

/-- UTF-8 encoding of a character, byte values as `Nat`
(the bytes Rust sends for a `&str`). -/
def utf8Bytes (c : Char) : List Nat :=
  let n := c.toNat
  if n < 0x80 then [n]
  else if n < 0x800 then [0xC0 + n / 64, 0x80 + n % 64]
  else if n < 0x10000 then [0xE0 + n / 4096, 0x80 + n / 64 % 64, 0x80 + n % 64]
  else [0xF0 + n / 262144, 0x80 + n / 4096 % 64, 0x80 + n / 64 % 64, 0x80 + n % 64]

/-- UTF-8 bytes of a string. -/
def strBytes (s : String) : List Nat :=
  s.data.flatMap utf8Bytes

/-- Build platform (`cfg(unix)` / `cfg(windows)`), selecting the
platform-specific parts of `spawn.rs`. -/
inductive Platform where
  | unix
  | windows
deriving DecidableEq, Repr

/-- The `LINE_ENDING` constant of `ShellSession::send_line`. -/
def lineEnding : Platform → String
  | Platform.unix => "\n"
  | Platform.windows => "\r\n"

/-- One chunk of PTY output: `dt` is the wall-clock time that elapses before
this chunk is returned by `Stream::read`, `data` the decoded text. -/
structure Chunk where
  dt : Nat
  data : String
deriving DecidableEq, Repr

/-- Model of `ShellSession` from `spawn.rs`.  `written` is the log of all
bytes sent to the child process stdin; `pending` the chunks the PTY stream
will deliver; `clock` the current wall-clock instant and `last_event` the
instant stored in the `last_event` field. -/
structure ShellSession where
  prompt : String
  quit_command : Option String
  timeout : Nat
  pending : List Chunk
  written : List Nat
  clock : Nat
  last_event : Nat
deriving DecidableEq, Repr

/-- `ShellSession::new_event`: an output event timed relative to
`last_event`, which is then rebased to now. -/
def ShellSession.new_event (s : ShellSession) (data : String) : Event × ShellSession :=
  (Event.output (s.clock - s.last_event) data, { s with last_event := s.clock })

/-- `ShellSession::reset`: rebase `last_event` to now. -/
def ShellSession.reset (s : ShellSession) : ShellSession :=
  { s with last_event := s.clock }

/-- `ShellSession::send`: write raw bytes to the child stdin. -/
def ShellSession.send (s : ShellSession) (buf : List Nat) : ShellSession :=
  { s with written := s.written ++ buf }

/-- `ShellSession::send_line`: the line followed by the platform line
terminator. -/
def ShellSession.send_line (p : Platform) (s : ShellSession) (line : String) : ShellSession :=
  (s.send (strBytes line)).send (strBytes (lineEnding p))

/-- Scan for the last index at which `pat` occurs in `s`, checking indices
`i < bound` from high to low (helper for `rsplit_once`). -/
def lastMatchGo (s pat : List Char) : Nat → Option Nat
  | 0 => none
  | i + 1 => if pat.isPrefixOf (s.drop i) then some i else lastMatchGo s pat i

/-- Index of the last occurrence of `pat` in `s`, if any. -/
def lastMatch (s pat : List Char) : Option Nat :=
  lastMatchGo s pat (s.length + 1)

/-- Rust `str::rsplit_once`: split around the last occurrence of `pat`. -/
def rsplitOnce (s pat : String) : Option (String × String) :=
  (lastMatch s.data pat.data).map fun i =>
    (⟨s.data.take i⟩, ⟨s.data.drop (i + pat.data.length)⟩)

/-- `ShellSession::read`: one bounded read of the shell output.  Returns the
optional event, whether the prompt was detected, and the new session. -/
def ShellSession.read (s : ShellSession) : (Option Event × Bool) × ShellSession :=
  match s.pending with
  | [] => ((none, false), s)
  | ch :: rest =>
    let s' : ShellSession := { s with pending := rest, clock := s.clock + ch.dt }
    if ch.data = "" then ((none, false), s')
    else
      match rsplitOnce ch.data s'.prompt with
      | some (before, _) =>
        if before = "" then ((none, true), s')
        else
          let (e, s'') := s'.new_event before
          ((some e, true), s'')
      | none =>
        let (e, s'') := s'.new_event ch.data
        ((some e, false), s'')

/-- Loop body of `ShellSession::read_until_prompt`: read until the prompt is
seen, accumulating events.  The fuel models the timeout budget: when the
stream stops producing chunks the real loop exits with a timeout error,
modelled here as `none`. -/
def readUntilPromptGo : Nat → ShellSession → List Event → Option (List Event × ShellSession)
  | fuel, s, acc =>
    let ((e, promptSeen), s') := s.read
    let acc' := acc ++ e.toList
    if promptSeen then some (acc', s')
    else
      match fuel with
      | 0 => none
      | fuel + 1 => readUntilPromptGo fuel s' acc'

/-- `ShellSession::read_until_prompt` as used by `config/run.rs`. -/
def ShellSession.read_until_prompt (s : ShellSession) : Option (List Event × ShellSession) :=
  readUntilPromptGo s.pending.length s []

/-- Result of `Wait::wait` from `spawn.rs`: how long the call blocks and
whether it returns Ok.  `exitTime` is the time until the child process
exits.  The unix implementation ignores the timeout argument and blocks
until the process exits; the windows implementation waits at most
`timeout`. -/
def waitProc : Platform → (timeout exitTime : Nat) → Nat × Bool
  | Platform.unix, _, exitTime => (exitTime, true)
  | Platform.windows, timeout, exitTime =>
    if exitTime ≤ timeout then (exitTime, true) else (timeout, false)

/-- `ShellSession::quit`: send the quit command (when configured), then wait
for the child process.  Returns the session after the send, the time the
wait blocked, and whether it succeeded. -/
def ShellSession.quit (p : Platform) (s : ShellSession) (exitTime : Nat) :
    ShellSession × Nat × Bool :=
  let s' :=
    match s.quit_command with
    | some qc => s.send_line p qc
    | none => s
  let r := waitProc p s'.timeout exitTime
  (s', r)

/-- `Command::send` from `config/run.rs`: reset the event clock, then send
the command text. A multi-line command is sent as its lines joined by a
single space, as one line; a control command sends the raw control byte. -/
def Command.send (p : Platform) (c : Command) (s : ShellSession) : ShellSession :=
  let s' := s.reset
  match c with
  | Command.singleLine line => s'.send_line p line
  | Command.multiLine lines => s'.send_line p (String.intercalate " " lines)
  | Command.control ctl => s'.send [ctl.byte]

/-- `type_line` from `config/run.rs`: one output event per character, each
at `type_speed`, followed by an `outputln` terminator event. -/
def type_line (type_speed : Nat) (line : List Char) : List Event :=
  line.map (fun c => Event.output type_speed (String.mk [c])) ++ [Event.outputln type_speed]

/-- `Command::events` from `config/run.rs`: the synthetic typed-event
sequence for a command. -/
def Command.events (c : Command) (type_speed : Nat) (secondary_prompt line_split : String) :
    List Event :=
  match c with
  | Command.singleLine line => type_line type_speed line.data
  | Command.multiLine lines =>
    (lines.enum.map fun li =>
      (if li.1 ≠ 0 then [Event.output type_speed secondary_prompt] else []) ++
        type_line type_speed
          (li.2.data ++ if li.1 + 1 < lines.length then line_split.data else [])).flatten
  | Command.control ctl => type_line type_speed ctl.caret.data

/-- `Key::send` from `config/run.rs`: a `Char` key sends the single byte
`char as u8` (the code point truncated to 8 bits); a `String` key sends each
of its characters the same way; a control key sends the control byte; a wait
key sends nothing. -/
def Key.send (k : Key) (s : ShellSession) : ShellSession :=
  match k with
  | Key.char c => s.send [c.toNat % 256]
  | Key.string str => str.data.foldl (fun s' c => s'.send [c.toNat % 256]) s
  | Key.control ctl => s.send [ctl.byte]
  | Key.wait _ => s

/-- The `Events` enum from `config/run.rs`: the event fragment one
instruction produces.  `wait` and `none` fragments yield no events when
iterated. -/
inductive Events where
  | command (es : List Event)
  | clear (es : List Event)
  | once (e : Event)
  | wait (d : Nat)
  | none
deriving DecidableEq, Repr

/-- The iterator semantics of `Events`: the list of events it yields. -/
def Events.toList : Events → List Event
  | Events.command es => es
  | Events.clear es => es
  | Events.once e => [e]
  | Events.wait _ => []
  | Events.none => []

/-- `keys_to_events` from `config/run.rs`.  The wall-clock poll
`Instant::now() >= next` is abstracted by the oracle `sched` (iteration
number to whether the next key is due; the `next += wait`/`next +=
type_speed` bookkeeping is folded into the oracle), and the read-timeout
budget by `fuel` (exhaustion models the loop erroring out). -/
def keys_to_events (sched : Nat → Bool) :
    Nat → Nat → List Key → ShellSession → Option (List Event × ShellSession)
  | 0, _, _, _ => none
  | fuel + 1, iter, keys, s =>
    let ((e, promptSeen), s') := s.read
    let evs := e.toList
    if promptSeen then some (evs, s')
    else if sched iter then
      match keys with
      | key :: rest =>
        (keys_to_events sched fuel (iter + 1) rest (key.send s')).map
          fun r => (evs ++ r.1, r.2)
      | [] =>
        s'.read_until_prompt.map fun r => (evs ++ r.1, r.2)
    else
      (keys_to_events sched fuel (iter + 1) keys s').map fun r => (evs ++ r.1, r.2)

/-- `Instruction::run` from `config/run.rs`: execute one instruction against
the session, producing its event fragment.  `none` models a run error
(send/read failure or timeout).  `sched` and `ifuel` parameterize the
interactive polling loop as in `keys_to_events`. -/
def Instruction.run (p : Platform) (sched : Nat → Bool) (ifuel : Nat) (inst : Instruction)
    (prompt secondary_prompt : String) (default_type_speed : Nat) (line_split : String)
    (s : ShellSession) : Option (Events × ShellSession) :=
  match inst with
  | Instruction.command cmd hidden ts? =>
    let s₁ := cmd.send p s
    match s₁.read_until_prompt with
    | none => none
    | some (output, s₂) =>
      if hidden then some (Events.none, s₂)
      else
        let (pe, s₃) := s₂.new_event prompt
        let ts := ts?.getD default_type_speed
        some (Events.command (cmd.events ts secondary_prompt line_split ++ (output ++ [pe])), s₃)
  | Instruction.interactive cmd keys ts? =>
    let s₁ := cmd.send p s
    let ts := ts?.getD default_type_speed
    match keys_to_events sched ifuel 0 keys s₁ with
    | none => none
    | some (output, s₂) =>
      let (pe, s₃) := s₂.new_event prompt
      some (Events.command (cmd.events ts secondary_prompt line_split ++ (output ++ [pe])), s₃)
  | Instruction.wait d => some (Events.wait d, s)
  | Instruction.marker data => some (Events.once (Event.marker 0 data), s)
  | Instruction.clear =>
    some (Events.clear
      [Event.output default_type_speed "\r\x1b[H\x1b[2J\x1b[3J",
       Event.output default_type_speed prompt], s)

/-- The wait-debt fold of `instructions` in `config/run.rs` (the `flat_map`
with the captured `wait_time`): flatten the fragments, adding the
accumulated wait time to the first event of each fragment that yields one.
Returns the flattened events and the wait time left unattached at the
end. -/
def applyDebt : Nat → List Events → List Event × Nat
  | debt, [] => ([], debt)
  | debt, f :: rest =>
    let debt' :=
      match f with
      | Events.wait d => debt + d
      | _ => debt
    match f.toList with
    | [] => applyDebt debt' rest
    | e :: tail =>
      let r := applyDebt 0 rest
      ({ e with time := e.time + debt' } :: (tail ++ r.1), r.2)

/-- The `scan` of `instructions` in `config/run.rs`: each event's time gets
the running total added, and the running total becomes that event's time
(so the times turn into cumulative sums). -/
def scanTimes : Nat → List Event → List Event
  | _, [] => []
  | acc, e :: rest =>
    { e with time := e.time + acc } :: scanTimes (e.time + acc) rest

/-- The final `last.time += wait_time` of `instructions` in
`config/run.rs`: add the leftover wait debt to the last event. -/
def addToLast (extra : Nat) : List Event → List Event
  | [] => []
  | [e] => [{ e with time := e.time + extra }]
  | e :: rest => e :: addToLast extra rest

/-- The assembly pipeline of `instructions` in `config/run.rs`, applied to
the per-instruction fragments: leading prompt event, wait-debt application,
trailing terminator event, the cumulative-time scan, and the trailing-debt
fix-up. -/
def assemble (prompt : String) (type_speed : Nat) (frags : List Events) : List Event :=
  let r := applyDebt 0 frags
  addToLast r.2
    (scanTimes 0 (Event.output 0 prompt :: (r.1 ++ [Event.outputln type_speed])))

/-- Sequentially run a list of instructions, threading the session and
collecting the fragments (the `map` + `process_results` traversal of
`instructions`). -/
def runInstructionsGo (p : Platform) (sched : Nat → Bool) (ifuel : Nat)
    (prompt secondary_prompt : String) (type_speed : Nat) (line_split : String) :
    List Instruction → ShellSession → Option (List Events × ShellSession)
  | [], s => some ([], s)
  | inst :: rest, s =>
    match inst.run p sched ifuel prompt secondary_prompt type_speed line_split s with
    | none => none
    | some (f, s') =>
      match runInstructionsGo p sched ifuel prompt secondary_prompt type_speed line_split
          rest s' with
      | none => none
      | some (fs, s'') => some (f :: fs, s'')

/-- `instructions` from `config/run.rs`: run the whole script and assemble
the global event sequence. -/
def instructions (p : Platform) (sched : Nat → Bool) (ifuel : Nat)
    (insts : List Instruction) (prompt secondary_prompt : String) (type_speed : Nat)
    (line_split : String) (s : ShellSession) : Option (List Event) :=
  (runInstructionsGo p sched ifuel prompt secondary_prompt type_speed line_split insts s).map
    fun r => assemble prompt type_speed r.1

/-- JSON values appearing in the serialized header.  `secs` is a Duration
(nanoseconds) serialized through `as_secs_f64`; `f64` carries the opaque
floating-point payload type `F` of `idle_time_limit` (never inspected by the
program). -/
inductive JsonValue (F : Type) where
  | nat (n : Nat)
  | str (s : String)
  | secs (nanos : Nat)
  | f64 (x : F)
  | env (m : List (String × String))
deriving DecidableEq, Repr

/-- `Header` from `asciicast.rs`.  `timestamp` is modelled as seconds since
the unix epoch (the value `SystemTime` serializes to); `duration` as
nanoseconds; the `f64` field `idle_time_limit` carries an opaque payload of
type `F`.  `env` is the map as an association list. -/
structure Header (F : Type) where
  width : Nat
  height : Nat
  timestamp : Option Nat
  duration : Option Nat
  idle_time_limit : Option F
  command : Option String
  title : Option String
  env : List (String × String)
deriving DecidableEq, Repr

/-- The field sequence emitted by `impl Serialize for Header`: fixed
version 2, then width and height, then each optional field only when
present, `env` only when non-empty, in source order. -/
def Header.serializeFields {F : Type} (h : Header F) : List (String × JsonValue F) :=
  [("version", JsonValue.nat 2), ("width", JsonValue.nat h.width),
   ("height", JsonValue.nat h.height)]
  ++ (match h.timestamp with
      | some t => [("timestamp", JsonValue.nat t)]
      | none => [])
  ++ (match h.duration with
      | some d => [("duration", JsonValue.secs d)]
      | none => [])
  ++ (match h.idle_time_limit with
      | some l => [("idle_time_limit", JsonValue.f64 l)]
      | none => [])
  ++ (match h.command with
      | some c => [("command", JsonValue.str c)]
      | none => [])
  ++ (match h.title with
      | some t => [("title", JsonValue.str t)]
      | none => [])
  ++ (if h.env.isEmpty then [] else [("env", JsonValue.env h.env)])

/-- The decimal digit character for `n % 10`. -/
def digitChar (n : Nat) : Char :=
  Char.ofNat (48 + n % 10)

/-- Decimal digits of `n`, most significant first (fuel-driven; the fuel
`n + 1` always suffices).  This is the rendering Rust `Display` for
integers produces. -/
def natDigitsGo : Nat → Nat → List Char
  | 0, _ => []
  | fuel + 1, n => if n < 10 then [digitChar n] else natDigitsGo fuel (n / 10) ++ [digitChar n]

/-- Decimal rendering of a natural number. -/
def natDigits (n : Nat) : List Char :=
  natDigitsGo (n + 1) n

/-- `n % 1000000` rendered as exactly six decimal digits, zero padded (the
fractional part written by `{value:.6}`). -/
def pad6 (n : Nat) : List Char :=
  [digitChar (n / 100000), digitChar (n / 10000), digitChar (n / 1000),
   digitChar (n / 100), digitChar (n / 10), digitChar n]

/-- The custom `Formatter::write_f64` of `asciicast.rs` applied to
`Duration::as_secs_f64` of a duration of `nanos` nanoseconds: the Rust
format `{value:.6}`, i.e. the seconds value with exactly six decimal
places.  The binary-float rounding of `as_secs_f64` is abstracted: the
model rounds the nanosecond count to microseconds exactly (half up). -/
def fmt6 (nanos : Nat) : String :=
  let micros := (nanos + 500) / 1000
  ⟨natDigits (micros / 1000000) ++ ('.' :: pad6 (micros % 1000000))⟩

/-- Lowercase hexadecimal digit for `n < 16`. -/
def hexDigit (n : Nat) : Char :=
  if n < 10 then Char.ofNat (48 + n) else Char.ofNat (87 + n)

/-- The escaping serde_json applies to one character of a JSON string:
quote and backslash get a backslash escape, control characters get their
short escape or a `\u00XX` escape, everything else is passed through. -/
def escapeJsonChar (c : Char) : List Char :=
  if c = '"' then ['\\', '"']
  else if c = '\\' then ['\\', '\\']
  else if c.toNat < 0x20 then
    match c.toNat with
    | 8 => ['\\', 'b']
    | 9 => ['\\', 't']
    | 10 => ['\\', 'n']
    | 12 => ['\\', 'f']
    | 13 => ['\\', 'r']
    | n => ['\\', 'u', '0', '0', hexDigit (n / 16), hexDigit (n % 16)]
  else [c]

/-- serde_json rendering of a JSON string: quoted and escaped. -/
def jsonString (s : String) : String :=
  ⟨'"' :: (s.data.flatMap escapeJsonChar ++ ['"'])⟩

/-- `impl Serialize for EventType`: the single-character tag string. -/
def EventType.code : EventType → String
  | EventType.input => "i"
  | EventType.output => "o"
  | EventType.marker => "m"

/-- `impl Serialize for Event` under the custom `Formatter`: a three-element
JSON array `[time, kind, data]`, elements separated by a comma and a space,
the time written by `write_f64` with six decimal places, the kind and data
as JSON strings. -/
def Event.serialize (e : Event) : String :=
  "[" ++ fmt6 e.time ++ ", " ++ jsonString e.event_type.code ++ ", "
    ++ jsonString e.data ++ "]"

/-- The event lines of `File::write` from `asciicast.rs`: one serialized
event per line. -/
def writeEvents (events : List Event) : String :=
  String.join (events.map fun e => e.serialize ++ "\n")

/-- Occurrence test used to characterize `rsplit_once`: does `pat` occur in
`s` starting at some index `i < bound`? -/
def hasMatchGo (s pat : List Char) : Nat → Bool
  | 0 => false
  | i + 1 => pat.isPrefixOf (s.drop i) || hasMatchGo s pat i

/-- Does `pat` occur anywhere in `s`? -/
def hasMatch (s pat : List Char) : Bool :=
  hasMatchGo s pat (s.length + 1)

/-- Partial sums of a delta list starting from `acc`: element `i` of the
result is `acc` plus the sum of the first `i + 1` deltas. -/
def partialSums (acc : Nat) : List Nat → List Nat
  | [] => []
  | d :: ds => (acc + d) :: partialSums (acc + d) ds

/-- Add `extra` to the last element of a list of numbers. -/
def addLastNat (extra : Nat) : List Nat → List Nat
  | [] => []
  | [n] => [n + extra]
  | n :: rest => n :: addLastNat extra rest

theorem hasMatchGo_eq_true_iff (s pat : List Char) :
    ∀ n, hasMatchGo s pat n = true ↔ ∃ i < n, pat.isPrefixOf (s.drop i) = true := by
  intro n
  induction n with
  | zero => simp [hasMatchGo]
  | succ m ih =>
    simp only [hasMatchGo, Bool.or_eq_true, ih]
    constructor
    · rintro (h | ⟨i, hi, h⟩)
      · exact ⟨m, Nat.lt_succ_self m, h⟩
      · exact ⟨i, Nat.lt_succ_of_lt hi, h⟩
    · rintro ⟨i, hi, h⟩
      rcases Nat.lt_succ_iff_lt_or_eq.mp hi with hi' | rfl
      · exact Or.inr ⟨i, hi', h⟩
      · exact Or.inl h

theorem hasMatch_eq_false_iff (s pat : List Char) :
    hasMatch s pat = false ↔ ∀ i, pat.isPrefixOf (s.drop i) = false := by
  constructor
  · intro h i
    by_contra hne
    have hmatch : pat.isPrefixOf (s.drop i) = true := by
      cases hval : pat.isPrefixOf (s.drop i)
      · exact absurd hval hne
      · rfl
    rcases Nat.lt_or_ge i (s.length + 1) with hlt | hge
    · have : hasMatch s pat = true :=
        (hasMatchGo_eq_true_iff s pat _).mpr ⟨i, hlt, hmatch⟩
      simp [this] at h
    · have hdrop : s.drop i = [] := List.drop_eq_nil_of_le (by omega)
      rw [hdrop] at hmatch
      have hpat : pat = [] := by
        have := List.isPrefixOf_iff_prefix.mp hmatch
        simpa using this
      have : hasMatch s pat = true := by
        refine (hasMatchGo_eq_true_iff s pat _).mpr ⟨0, by omega, ?_⟩
        simp [hpat, List.isPrefixOf_iff_prefix]
      simp [this] at h
  · intro h
    cases hval : hasMatch s pat
    · rfl
    · obtain ⟨i, _, hmatch⟩ := (hasMatchGo_eq_true_iff s pat _).mp hval
      rw [h i] at hmatch
      exact absurd hmatch (by simp)

theorem lastMatchGo_eq_some (s pat : List Char) :
    ∀ n i, i < n → pat.isPrefixOf (s.drop i) = true →
      (∀ j, i < j → pat.isPrefixOf (s.drop j) = false) →
      lastMatchGo s pat n = some i := by
  intro n
  induction n with
  | zero => omega
  | succ m ih =>
    intro i hi hmatch hafter
    rcases Nat.lt_succ_iff_lt_or_eq.mp hi with hi' | rfl
    · have hm : pat.isPrefixOf (s.drop m) = false := hafter m hi'
      simp only [lastMatchGo, hm]
      simpa using ih i hi' hmatch hafter
    · simp [lastMatchGo, hmatch]

theorem lastMatchGo_eq_none (s pat : List Char) :
    ∀ n, (∀ i, pat.isPrefixOf (s.drop i) = false) → lastMatchGo s pat n = none := by
  intro n h
  induction n with
  | zero => rfl
  | succ m ih => simp [lastMatchGo, h m, ih]

/-- When `pat` does not occur in `s`, `rsplit_once` returns nothing. -/
theorem rsplitOnce_eq_none (s pat : String) (h : hasMatch s.data pat.data = false) :
    rsplitOnce s pat = none := by
  unfold rsplitOnce lastMatch
  rw [lastMatchGo_eq_none s.data pat.data _ ((hasMatch_eq_false_iff _ _).mp h)]
  rfl

/-- When `s = b ++ pat ++ a` and `pat` does not occur after position
`b.length`, `rsplit_once` splits exactly there: everything before the last
occurrence, and everything after it. -/
theorem rsplitOnce_eq_some (s pat : String) (b a : List Char)
    (hs : s.data = b ++ pat.data ++ a)
    (h : hasMatch ((b ++ pat.data ++ a).drop (b.length + 1)) pat.data = false) :
    rsplitOnce s pat = some (⟨b⟩, ⟨a⟩) := by
  have hafter : ∀ j, b.length < j → pat.data.isPrefixOf ((b ++ pat.data ++ a).drop j) = false := by
    intro j hj
    have hdd : (b ++ pat.data ++ a).drop j =
        ((b ++ pat.data ++ a).drop (b.length + 1)).drop (j - (b.length + 1)) := by
      rw [List.drop_drop]
      congr 1
      omega
    rw [hdd]
    exact (hasMatch_eq_false_iff _ _).mp h _
  have hat : pat.data.isPrefixOf ((b ++ pat.data ++ a).drop b.length) = true := by
    rw [List.append_assoc, List.drop_left]
    rw [List.isPrefixOf_iff_prefix]
    exact List.prefix_append _ _
  have hlen : b.length < (b ++ pat.data ++ a).length + 1 := by
    simp [List.length_append]
    omega
  unfold rsplitOnce lastMatch
  rw [hs]
  rw [lastMatchGo_eq_some (b ++ pat.data ++ a) pat.data _ b.length hlen hat hafter]
  simp only [Option.map_some', Option.some.injEq, Prod.mk.injEq]
  refine ⟨?_, ?_⟩
  · show (⟨(b ++ pat.data ++ a).take b.length⟩ : String) = ⟨b⟩
    rw [List.append_assoc, List.take_left]
  · show (⟨(b ++ pat.data ++ a).drop (b.length + pat.data.length)⟩ : String) = ⟨a⟩
    rw [show b.length + pat.data.length = (b ++ pat.data).length by simp]
    rw [List.drop_left]

theorem read_written (s : ShellSession) : (s.read).2.written = s.written := by
  rcases s with ⟨pr, qc, tmo, pending, w, ck, le⟩
  cases pending with
  | nil => rfl
  | cons ch rest =>
    unfold ShellSession.read
    dsimp only
    split
    · rfl
    · rcases h : rsplitOnce ch.data pr with _ | ⟨before, tail⟩
      · simp [h, ShellSession.new_event]
      · simp only [h, ShellSession.new_event]
        split <;> rfl

theorem readUntilPromptGo_written :
    ∀ fuel (s : ShellSession) acc r, readUntilPromptGo fuel s acc = some r →
      r.2.written = s.written := by
  intro fuel
  induction fuel with
  | zero =>
    intro s acc r h
    have hw := read_written s
    unfold readUntilPromptGo at h
    rcases hr : s.read with ⟨⟨e, promptSeen⟩, s'⟩
    rw [hr] at h hw
    dsimp only at h
    split at h
    · cases h
      exact hw
    · exact absurd h (by simp)
  | succ m ih =>
    intro s acc r h
    have hw := read_written s
    unfold readUntilPromptGo at h
    rcases hr : s.read with ⟨⟨e, promptSeen⟩, s'⟩
    rw [hr] at h hw
    dsimp only at h
    split at h
    · cases h
      exact hw
    · exact (ih _ _ _ h).trans hw

theorem read_until_prompt_written (s : ShellSession) (r : List Event × ShellSession)
    (h : s.read_until_prompt = some r) : r.2.written = s.written :=
  readUntilPromptGo_written _ _ _ _ h

theorem foldl_send_written (l : List Char) :
    ∀ s : ShellSession,
      (l.foldl (fun s' c => s'.send [c.toNat % 256]) s).written =
        s.written ++ l.map (fun c => c.toNat % 256) := by
  induction l with
  | nil => intro s; simp
  | cons c rest ih =>
    intro s
    rw [List.foldl_cons, ih]
    simp [ShellSession.send]

theorem digitChar_isDigit (n : Nat) : (digitChar n).isDigit = true := by
  unfold digitChar
  have h : n % 10 < 10 := Nat.mod_lt _ (by omega)
  set m := n % 10 with hm
  interval_cases m <;> decide

theorem natDigitsGo_spec :
    ∀ fuel n, n < fuel →
      natDigitsGo fuel n ≠ [] ∧ ∀ c ∈ natDigitsGo fuel n, c.isDigit = true := by
  intro fuel
  induction fuel with
  | zero => intro n h; exact absurd h (Nat.not_lt_zero n)
  | succ m ih =>
    intro n h
    unfold natDigitsGo
    split
    · refine ⟨by simp, ?_⟩
      intro c hc
      simp only [List.mem_singleton] at hc
      subst hc
      exact digitChar_isDigit n
    · have hn10 : 10 ≤ n := Nat.le_of_not_lt (by assumption)
      have hlt : n / 10 < n := Nat.div_lt_self (by omega) (by omega)
      have hdiv : n / 10 < m := by omega
      obtain ⟨hne, hall⟩ := ih (n / 10) hdiv
      refine ⟨by simp, ?_⟩
      intro c hc
      rcases List.mem_append.mp hc with h1 | h2
      · exact hall c h1
      · simp only [List.mem_singleton] at h2
        subst h2
        exact digitChar_isDigit n

theorem natDigits_spec (n : Nat) :
    natDigits n ≠ [] ∧ ∀ c ∈ natDigits n, c.isDigit = true :=
  natDigitsGo_spec (n + 1) n (Nat.lt_succ_self n)

theorem pad6_spec (n : Nat) : (pad6 n).length = 6 ∧ ∀ c ∈ pad6 n, c.isDigit = true := by
  refine ⟨rfl, ?_⟩
  intro c hc
  unfold pad6 at hc
  simp only [List.mem_cons, List.mem_singleton, List.not_mem_nil, or_false] at hc
  rcases hc with h | h | h | h | h | h <;> (subst h; exact digitChar_isDigit _)

theorem scanTimes_map_time :
    ∀ (evs : List Event) (acc : Nat),
      (scanTimes acc evs).map Event.time = partialSums acc (evs.map Event.time) := by
  intro evs
  induction evs with
  | nil => intro acc; rfl
  | cons e rest ih =>
    intro acc
    simp [scanTimes, partialSums, ih, Nat.add_comm]

theorem addToLast_map_time :
    ∀ (evs : List Event) (x : Nat),
      (addToLast x evs).map Event.time = addLastNat x (evs.map Event.time) := by
  intro evs
  induction evs with
  | nil => intro x; rfl
  | cons e rest ih =>
    intro x
    cases rest with
    | nil => rfl
    | cons f rest' => simpa [addToLast, addLastNat] using ih x

theorem partialSums_chain (ds : List Nat) :
    ∀ acc, List.Chain' (· ≤ ·) (acc :: partialSums acc ds) := by
  induction ds with
  | nil => intro acc; simp [partialSums]
  | cons d rest ih =>
    intro acc
    rw [partialSums, List.chain'_cons]
    exact ⟨Nat.le_add_right acc d, ih (acc + d)⟩

theorem addLastNat_chain :
    ∀ (l : List Nat) (x : Nat), List.Chain' (· ≤ ·) l →
      List.Chain' (· ≤ ·) (addLastNat x l) := by
  intro l
  induction l with
  | nil => intro x _; exact List.chain'_nil
  | cons n rest ih =>
    intro x h
    cases rest with
    | nil => simp [addLastNat]
    | cons m rest' =>
      rw [List.chain'_cons] at h
      have htail : List.Chain' (· ≤ ·) (addLastNat x (m :: rest')) := ih x h.2
      show List.Chain' (· ≤ ·) (n :: addLastNat x (m :: rest'))
      cases rest' with
      | nil =>
        show List.Chain' (· ≤ ·) (n :: [m + x])
        simp only [List.chain'_cons, List.chain'_singleton, and_true]
        exact h.1.trans (Nat.le_add_right m x)
      | cons k rest'' =>
        show List.Chain' (· ≤ ·) (n :: m :: addLastNat x (k :: rest''))
        rw [List.chain'_cons]
        exact ⟨h.1, htail⟩

/-- Claim C1 (counterexample): the claim that every emitted event's time is
a delta from the previous event fails.  For the one-instruction script
`[Clear]` with type speed 1, the assembled recording's times are the
cumulative values 0, 1, 2, 3, while the deltas between consecutive events
are 0, 1, 1, 1 — the third and fourth events carry times that are not
deltas. -/
theorem clear_script_times_not_deltas :
    (instructions Platform.unix (fun _ => false) 0 [Instruction.clear] "$ " "> " 1 " \\"
        ⟨"$ ", none, 9, [], [], 0, 0⟩).map (List.map Event.time) = some [0, 1, 2, 3]
    ∧ List.zipWith (fun t prev => t - prev) [0, 1, 2, 3] (0 :: [0, 1, 2, 3]) = [0, 1, 1, 1]
    ∧ ([0, 1, 2, 3] : List Nat) ≠ [0, 1, 1, 1] := by
  decide

/-- Claim C1 (amended): the per-instruction fragments carry delta-encoded
times, but the timeline assembler's scan converts them to absolute
(cumulative) times: each output event's time is the running sum of the
delta times of the debt-adjusted stream (with the leftover wait debt added
to the final event), so the emitted time fields are non-decreasing absolute
times since the synthetic session start, not deltas. -/
theorem assemble_times_cumulative (prompt : String) (ts : Nat) (frags : List Events) :
    (assemble prompt ts frags).map Event.time =
      addLastNat (applyDebt 0 frags).2
        (partialSums 0
          ((Event.output 0 prompt :: ((applyDebt 0 frags).1 ++ [Event.outputln ts])).map
            Event.time))
    ∧ List.Chain' (· ≤ ·) ((assemble prompt ts frags).map Event.time) := by
  have hmap : (assemble prompt ts frags).map Event.time =
      addLastNat (applyDebt 0 frags).2
        (partialSums 0
          ((Event.output 0 prompt :: ((applyDebt 0 frags).1 ++ [Event.outputln ts])).map
            Event.time)) := by
    unfold assemble
    rw [addToLast_map_time, scanTimes_map_time]
  refine ⟨hmap, ?_⟩
  rw [hmap]
  exact addLastNat_chain _ _ (List.chain'_cons'.mp (partialSums_chain _ 0)).2

/-- Claim C2 (counterexample): the claim that only a trailing prompt is
stripped (otherwise all data becomes one event with `prompt_seen = false`)
fails when the prompt occurs mid-chunk.  Reading the chunk
`"a<PROMPT>b"` with prompt `"<PROMPT>"` yields the event `"a"` with
`prompt_seen = true` (dropping `"b"`), not one `"a<PROMPT>b"` event with
`prompt_seen = false`. -/
theorem read_midchunk_prompt_counterexample :
    (ShellSession.read ⟨"<PROMPT>", none, 9, [⟨0, "a<PROMPT>b"⟩], [], 0, 0⟩).1
      = (some (Event.output 0 "a"), true)
    ∧ (ShellSession.read ⟨"<PROMPT>", none, 9, [⟨0, "a<PROMPT>b"⟩], [], 0, 0⟩).1
      ≠ (some (Event.output 0 "a<PROMPT>b"), false) := by
  decide

/-- Claim C2 (amended): one read returns `(none, false)` when no data was
read; when the prompt occurs nowhere in the fresh data, all of it becomes
one Output event with `prompt_seen = false`; and when the fresh data is
`b ++ prompt ++ a` with no occurrence of the prompt after position
`b.length` (so the LAST occurrence, anywhere in the chunk — not only a
trailing one), the read reports `prompt_seen = true` and emits an Output
event for exactly the data `b` before the prompt (none when `b` is empty),
discarding the data `a` after it. -/
theorem read_last_occurrence (s : ShellSession) (dt : Nat) (data : String)
    (rest : List Chunk) (hp : s.pending = ⟨dt, data⟩ :: rest) :
    (data = "" →
      s.read = ((none, false), { s with pending := rest, clock := s.clock + dt }))
    ∧ (data ≠ "" → hasMatch data.data s.prompt.data = false →
      s.read = ((some (Event.output (s.clock + dt - s.last_event) data), false),
        { s with pending := rest, clock := s.clock + dt, last_event := s.clock + dt }))
    ∧ (∀ b a : List Char, data.data = b ++ s.prompt.data ++ a →
        hasMatch ((b ++ s.prompt.data ++ a).drop (b.length + 1)) s.prompt.data = false →
        s.read =
          if b = [] then ((none, true), { s with pending := rest, clock := s.clock + dt })
          else ((some (Event.output (s.clock + dt - s.last_event) ⟨b⟩), true),
            { s with pending := rest, clock := s.clock + dt, last_event := s.clock + dt })) := by
  rcases s with ⟨pr, qc, tmo, pending, w, ck, le⟩
  simp only at hp
  subst hp
  refine ⟨?_, ?_, ?_⟩
  · intro hd
    simp [ShellSession.read, hd]
  · intro hd hm
    have hnone := rsplitOnce_eq_none data pr hm
    simp [ShellSession.read, hd, hnone, ShellSession.new_event]
  · intro b a hdata hm
    have hpat : pr.data ≠ [] := by
      intro h0
      have : hasMatch ((b ++ pr.data ++ a).drop (b.length + 1)) pr.data = true := by
        refine (hasMatchGo_eq_true_iff _ _ _).mpr ⟨0, by omega, ?_⟩
        simp [h0, List.isPrefixOf_iff_prefix]
      rw [this] at hm
      exact absurd hm (by simp)
    have hd : data ≠ "" := by
      intro h0
      rw [h0] at hdata
      simp at hdata
      exact hpat hdata.2.1
    have hsome := rsplitOnce_eq_some data pr b a hdata hm
    by_cases hb : b = []
    · subst hb
      have hbe : ((⟨[]⟩ : String) = "") := rfl
      simp [ShellSession.read, hd, hsome, hbe]
    · have hbe : ((⟨b⟩ : String) ≠ "") := by
        intro h0
        apply hb
        have : (⟨b⟩ : String).data = ("" : String).data := by rw [h0]
        simpa using this
      simp [ShellSession.read, hd, hsome, hbe, hb, ShellSession.new_event]

/-- Claim C2 (witness): the spec's own example, raw output
`"hello<PROMPT>"` with prompt `"<PROMPT>"`, yields one Output event with
data `"hello"` and `prompt_seen = true`. -/
theorem read_last_occurrence_witness :
    (ShellSession.read ⟨"<PROMPT>", none, 9, [⟨0, "hello<PROMPT>"⟩], [], 0, 0⟩)
      = ((some (Event.output 0 "hello"), true),
         ⟨"<PROMPT>", none, 9, [], [], 0, 0⟩) := by
  have h := (read_last_occurrence ⟨"<PROMPT>", none, 9, [⟨0, "hello<PROMPT>"⟩], [], 0, 0⟩
      0 "hello<PROMPT>" [] rfl).2.2 "hello".data [] (by decide) (by decide)
  simpa using h

/-- Claim C3 (counterexample): the claim that `quit()` blocks for at most
the session timeout and fails with a timeout error otherwise fails on
unix.  With timeout 1 and a process that exits after 5, the unix wait
blocks 5 (more than the timeout) and still returns success. -/
theorem quit_unix_blocks_past_timeout :
    (ShellSession.quit Platform.unix ⟨"$ ", some "exit", 1, [], [], 0, 0⟩ 5).2 = (5, true)
    ∧ ¬ ((ShellSession.quit Platform.unix ⟨"$ ", some "exit", 1, [], [], 0, 0⟩ 5).2.1 ≤ 1)
    ∧ (ShellSession.quit Platform.unix ⟨"$ ", some "exit", 1, [], [], 0, 0⟩ 5).2.2 = true := by
  decide

/-- Claim C3 (amended): `quit()` sends the configured quit command (if one
is configured, followed by the line terminator) and then waits for process
exit; only the windows implementation bounds the wait by the session
timeout and fails when the process does not exit in time — the unix
implementation ignores the timeout and blocks until the process exits,
never failing with a timeout. -/
theorem quit_behavior (p : Platform) (s : ShellSession) (exitTime : Nat) :
    (ShellSession.quit Platform.unix s exitTime).2 = (exitTime, true)
    ∧ (ShellSession.quit Platform.windows s exitTime).2 =
        (if exitTime ≤ s.timeout then (exitTime, true) else (s.timeout, false))
    ∧ (ShellSession.quit p s exitTime).1.written =
        s.written ++ (match s.quit_command with
          | some qc => strBytes qc ++ strBytes (lineEnding p)
          | none => []) := by
  rcases s with ⟨pr, qc, tmo, pending, w, ck, le⟩
  cases qc <;>
    simp [ShellSession.quit, waitProc, ShellSession.send_line, ShellSession.send]

/-- Claim C4: a `Wait` fragment yields no events; sequential waits sum into
the debt accumulator; for the script `Wait a, Wait b, Marker x` the marker
event's delta from the previous event (the leading prompt at time 0) is
exactly `a + b`; and when the script ends in `Wait a` the remaining debt is
added to the final terminator event, whose delta becomes `ts + a`. -/
theorem wait_debt_conservation (a b ts : Nat) (x prompt sec split : String)
    (p : Platform) (sched : Nat → Bool) (ifuel : Nat) (s : ShellSession) :
    (∀ d, (Events.wait d).toList = [])
    ∧ (∀ debt d fs, applyDebt debt (Events.wait d :: fs) = applyDebt (debt + d) fs)
    ∧ instructions p sched ifuel [Instruction.wait a, Instruction.wait b, Instruction.marker x]
        prompt sec ts split s =
        some [Event.output 0 prompt, Event.marker (a + b) x, Event.outputln (a + b + ts)]
    ∧ instructions p sched ifuel [Instruction.marker x, Instruction.wait a]
        prompt sec ts split s =
        some [Event.output 0 prompt, Event.marker 0 x, Event.outputln (ts + a)] := by
  refine ⟨fun d => rfl, fun debt d fs => rfl, ?_, ?_⟩
  · simp [instructions, runInstructionsGo, Instruction.run, assemble, applyDebt,
      Events.toList, scanTimes, addToLast, Event.output, Event.marker, Event.outputln]
    omega
  · simp [instructions, runInstructionsGo, Instruction.run, assemble, applyDebt,
      Events.toList, scanTimes, addToLast, Event.output, Event.marker, Event.outputln]

/-- Claim C5: a hidden command contributes zero events, while the command
is still sent to the session and its output is read until the prompt:
whenever the visible run of the same command succeeds, the hidden run
succeeds with the empty `Events.none` fragment and a session state with the
same written bytes, same remaining stream, and same clock (the written log
ends with the sent command bytes). -/
theorem hidden_command_silence (p : Platform) (sched : Nat → Bool) (ifuel : Nat)
    (cmd : Command) (ts? : Option Nat) (prompt sec : String) (dts : Nat) (split : String)
    (s : ShellSession) (frag : Events) (s₁ : ShellSession)
    (h : Instruction.run p sched ifuel (Instruction.command cmd false ts?) prompt sec dts split s
        = some (frag, s₁)) :
    ∃ s₂ : ShellSession,
      Instruction.run p sched ifuel (Instruction.command cmd true ts?) prompt sec dts split s
        = some (Events.none, s₂)
      ∧ Events.toList Events.none = []
      ∧ s₂.written = s₁.written ∧ s₂.pending = s₁.pending ∧ s₂.clock = s₁.clock
      ∧ s₂.written = (Command.send p cmd s).written := by
  unfold Instruction.run at h ⊢
  dsimp only at h ⊢
  rcases hr : (Command.send p cmd s).read_until_prompt with _ | ⟨output, s₂⟩
  · rw [hr] at h
    exact absurd h (by simp)
  · rw [hr] at h
    simp only [ShellSession.new_event] at h
    simp only [Bool.false_eq_true, if_false, Option.some.injEq, Prod.mk.injEq] at h
    obtain ⟨-, hs⟩ := h
    refine ⟨s₂, ?_, rfl, ?_, ?_, ?_, read_until_prompt_written _ _ hr⟩
    · simp
    · rw [← hs]
    · rw [← hs]
    · rw [← hs]

/-- Claim C5 (witness): running hidden `x` against a session whose stream
next delivers the prompt gives zero events while the session still
advances — the command bytes (`x` and the line terminator) are in the
written log and the prompt chunk is consumed. -/
theorem hidden_command_silence_witness :
    ∃ s₂ : ShellSession,
      Instruction.run Platform.unix (fun _ => false) 0
          (Instruction.command (Command.singleLine "x") true none) "$ " "> " 1 " \\"
          ⟨"$ ", none, 9, [⟨3, "$ "⟩], [], 0, 0⟩
        = some (Events.none, s₂)
      ∧ Events.toList Events.none = []
      ∧ s₂.written = (⟨"$ ", none, 9, [], [120, 10], 3, 3⟩ : ShellSession).written
      ∧ s₂.pending = (⟨"$ ", none, 9, [], [120, 10], 3, 3⟩ : ShellSession).pending
      ∧ s₂.clock = (⟨"$ ", none, 9, [], [120, 10], 3, 3⟩ : ShellSession).clock
      ∧ s₂.written = (Command.send Platform.unix (Command.singleLine "x")
          ⟨"$ ", none, 9, [⟨3, "$ "⟩], [], 0, 0⟩).written :=
  hidden_command_silence Platform.unix (fun _ => false) 0 (Command.singleLine "x") none
    "$ " "> " 1 " \\" ⟨"$ ", none, 9, [⟨3, "$ "⟩], [], 0, 0⟩
    (Events.command [Event.output 1 "x", Event.outputln 1, Event.output 3 "$ "])
    ⟨"$ ", none, 9, [], [120, 10], 3, 3⟩ (by decide)

/-- Claim C6: the multi-line typed-event encoding emits, per line: no
secondary prompt for the first line and a secondary-prompt event first for
every later line; the typed line characters; the typed line-split
characters for every line except the last (before the terminator); and the
terminator event — with no line-split after the final line.  Concretely,
`MultiLine ["a", "b"]` yields typed `"a"`, the line-split characters, a
terminator, a secondary-prompt event, typed `"b"`, a terminator. -/
theorem multiline_encoding (ts : Nat) (sec split : String) (lines : List String) :
    Command.events (Command.multiLine lines) ts sec split =
      (lines.enum.map fun li =>
        (if li.1 = 0 then [] else [Event.output ts sec]) ++
          (li.2.data.map (fun c => Event.output ts (String.mk [c])) ++
            ((if li.1 + 1 < lines.length then
                split.data.map (fun c => Event.output ts (String.mk [c])) else []) ++
              [Event.outputln ts]))).flatten
    ∧ Command.events (Command.multiLine ["a", "b"]) ts sec split =
        Event.output ts "a" :: (split.data.map (fun c => Event.output ts (String.mk [c])) ++
          [Event.outputln ts, Event.output ts sec, Event.output ts "b", Event.outputln ts]) := by
  constructor
  · unfold Command.events
    refine congrArg List.flatten (List.map_congr_left ?_)
    intro li _
    obtain ⟨i, line⟩ := li
    have h1 : (if i ≠ 0 then [Event.output ts sec] else ([] : List Event)) =
        (if i = 0 then [] else [Event.output ts sec]) := by
      by_cases hi : i = 0 <;> simp [hi]
    have h2 : List.map (fun c => Event.output ts (String.mk [c]))
          (if i + 1 < lines.length then split.data else []) =
        (if i + 1 < lines.length then
          List.map (fun c => Event.output ts (String.mk [c])) split.data else []) := by
      by_cases hl : i + 1 < lines.length <;> simp [hl]
    simp only [type_line, List.map_append, List.append_assoc, h1, h2]
  · simp [Command.events, List.enum, List.enumFrom, type_line, List.map_append]

/-- Claim C7: the header serializes its fields in exactly the order
version, width, height, timestamp, duration, idle_time_limit, command,
title, env, with version the fixed value 2; absent optional fields (and an
empty env map) are skipped entirely — in particular a header with no title
emits no "title" key at all. -/
theorem header_serialization {F : Type} (h : Header F) :
    h.serializeFields.map Prod.fst =
      ["version", "width", "height"]
      ++ (if h.timestamp.isSome then ["timestamp"] else [])
      ++ (if h.duration.isSome then ["duration"] else [])
      ++ (if h.idle_time_limit.isSome then ["idle_time_limit"] else [])
      ++ (if h.command.isSome then ["command"] else [])
      ++ (if h.title.isSome then ["title"] else [])
      ++ (if h.env.isEmpty then [] else ["env"])
    ∧ h.serializeFields.head? = some ("version", JsonValue.nat 2)
    ∧ (("title" ∈ h.serializeFields.map Prod.fst) ↔ h.title.isSome = true) := by
  obtain ⟨w, hgt, tstamp, dur, idle, cmd, ttl, env⟩ := h
  refine ⟨?_, rfl, ?_⟩
  · cases tstamp <;> cases dur <;> cases idle <;> cases cmd <;> cases ttl <;>
      simp [Header.serializeFields, apply_ite]
  · cases tstamp <;> cases dur <;> cases idle <;> cases cmd <;> cases ttl <;>
      by_cases henv : env.isEmpty <;>
      simp [Header.serializeFields, henv]

/-- Claim C8: every event serializes to the JSON array
`[time, kind, data]` with `", "` between elements, where `kind` is the
single-character string "i", "o" or "m" by event type, `data` is the JSON
string of the payload, and the time is written with exactly six decimal
places (a nonempty all-digit integer part, a dot, and exactly six digits);
a 123 ms duration renders as `0.123000`; the writer emits one such line
per event. -/
theorem event_serialization_format (e : Event) :
    Event.serialize e =
      "[" ++ fmt6 e.time ++ ", " ++
        (match e.event_type with
         | EventType.input => "\"i\""
         | EventType.output => "\"o\""
         | EventType.marker => "\"m\"") ++ ", " ++ jsonString e.data ++ "]"
    ∧ (∃ ip fp : List Char, fmt6 e.time = ⟨ip ++ '.' :: fp⟩ ∧ ip ≠ [] ∧
        (∀ c ∈ ip, c.isDigit = true) ∧ fp.length = 6 ∧ ∀ c ∈ fp, c.isDigit = true)
    ∧ fmt6 123000000 = "0.123000"
    ∧ writeEvents [e] = Event.serialize e ++ "\n" := by
  refine ⟨?_, ?_, by decide, ?_⟩
  · rcases e with ⟨t, ty, d⟩
    cases ty <;> rfl
  · obtain ⟨hne, hall⟩ := natDigits_spec (((e.time + 500) / 1000) / 1000000)
    obtain ⟨hlen, hdig⟩ := pad6_spec ((e.time + 500) / 1000 % 1000000)
    exact ⟨natDigits (((e.time + 500) / 1000) / 1000000), pad6 ((e.time + 500) / 1000 % 1000000),
      rfl, hne, hall, hlen, hdig⟩
  · rfl

/-- Claim C9: a multi-line command sends to the shell exactly the lines
joined by a single space followed by one line terminator — the same bytes a
single-line command of the joined text sends — regardless of the number of
lines; the line-split marker and secondary prompt are not parameters of
the send path at all (they only shape the synthetic typed events), and the
pending stream is untouched by sending. -/
theorem multiline_send_single_line (p : Platform) (lines : List String) (s : ShellSession) :
    (Command.send p (Command.multiLine lines) s).written =
      s.written ++ (strBytes (String.intercalate " " lines) ++ strBytes (lineEnding p))
    ∧ Command.send p (Command.multiLine lines) s =
        Command.send p (Command.singleLine (String.intercalate " " lines)) s
    ∧ (Command.send p (Command.multiLine lines) s).pending = s.pending := by
  refine ⟨?_, rfl, rfl⟩
  simp [Command.send, ShellSession.send_line, ShellSession.send, ShellSession.reset]

/-- Claim C10: sending `Key::Char c` writes exactly one byte, the code
point truncated to its low 8 bits (`c mod 256`), and a `Key::String` sends
each character the same way; consequently for any non-ASCII character
(code point at least 128) the byte sent differs from the UTF-8 encoding of
the character. -/
theorem key_char_send_truncates (c : Char) (str : String) (s : ShellSession) :
    (Key.send (Key.char c) s).written = s.written ++ [c.toNat % 256]
    ∧ (Key.send (Key.string str) s).written =
        s.written ++ str.data.map (fun ch => ch.toNat % 256)
    ∧ (128 ≤ c.toNat → [c.toNat % 256] ≠ utf8Bytes c) := by
  refine ⟨rfl, foldl_send_written str.data s, ?_⟩
  intro h128 heq
  have h8 : ¬ c.toNat < 0x80 := by omega
  simp only [utf8Bytes, h8, if_false] at heq
  split_ifs at heq <;> simpa using congrArg List.length heq

/-- Claim C10 (witness): the pound-sign character (code point 163) is sent
as the single byte 163, which is not its two-byte UTF-8 encoding. -/
theorem key_char_send_truncates_witness :
    (Key.send (Key.char (Char.ofNat 163)) ⟨"sh", none, 0, [], [], 0, 0⟩).written = [163]
    ∧ [163] ≠ utf8Bytes (Char.ofNat 163) := by
  have h := key_char_send_truncates (Char.ofNat 163) "" ⟨"sh", none, 0, [], [], 0, 0⟩
  exact ⟨by simpa using h.1, h.2.2 (by decide)⟩
